import Mathlib

/-!
Verification of the feelnet sentiment-analysis engine.

Shallow embedding of the core classification code:
  * `src/analyzers/textblob_analyzer.py`  — TextBlob adapter
  * `src/analyzers/vader_analyzer.py`     — VADER adapter
  * `src/analyzers/transformer_analyzer.py` — transformer adapter and fallback
  * `src/analyzers/ensemble_analyzer.py`  — ensemble combiner
  * `src/analyzers/sentiment_analyzer.py` — unified analyzer, batch, statistics
  * `src/preprocessing/text_preprocessor.py` — normalization pipeline

Python floats are modelled as exact rationals (`ℚ`), Python strings as lists
of Unicode code points (`List ℕ`), and fallible calls as `Option`/`Except`.
Results of third-party libraries (TextBlob polarity, VADER polarity scores,
the transformer pipeline) enter the model as parameters, constrained only by
the invariants those libraries document.
-/

namespace Feelnet

/-- The `SentimentLabel` enum shared by all analyzer modules. -/
inductive SentimentLabel
  | positive
  | negative
  | neutral
deriving DecidableEq, Repr

/-- A score distribution over the three labels, in the fixed insertion order
`positive`, `negative`, `neutral` used by every scores dict in the source. -/
structure Scores where
  pos : ℚ
  neg : ℚ
  neu : ℚ
deriving DecidableEq, Repr

/-- `sum(scores.values())`. -/
def Scores.total (s : Scores) : ℚ := s.pos + s.neg + s.neu

/-- Dictionary lookup `scores[label]`. -/
def Scores.get (s : Scores) : SentimentLabel → ℚ
  | .positive => s.pos
  | .negative => s.neg
  | .neutral => s.neu

/-- All three components are non-negative. -/
def Scores.Nonneg (s : Scores) : Prop := 0 ≤ s.pos ∧ 0 ≤ s.neg ∧ 0 ≤ s.neu

/-- `{k: v / t for k, v in scores.items()}`. -/
def Scores.divBy (s : Scores) (t : ℚ) : Scores := ⟨s.pos / t, s.neg / t, s.neu / t⟩

/-- Python `max(scores, key=scores.get)` over a dict built in insertion order
positive, negative, neutral: the running maximum starts at `positive` and is
replaced only by a strictly greater later value. -/
def argmaxPNN (s : Scores) : SentimentLabel :=
  if s.pos < s.neg then
    (if s.neg < s.neu then .neutral else .negative)
  else
    (if s.pos < s.neu then .neutral else .positive)

/-- The result dictionary every adapter returns: `sentiment`, `confidence`,
`scores` (extra diagnostic keys such as `polarity` are not modelled). -/
structure AnalysisResult where
  sentiment : SentimentLabel
  confidence : ℚ
  scores : Scores
deriving DecidableEq, Repr

/-- The score-distribution block of `TextBlobAnalyzer.analyze`
(`textblob_analyzer.py`, lines 51-80) as a function of the polarity scalar
returned by `TextBlob(text).sentiment`.  The source's `polarity > 0` and
`polarity < 0` branches build the raw score triple with the same three
expressions, so they are written here as the single `polarity ≠ 0` case. -/
def textblobScores (polarity : ℚ) : Scores :=
  let normalized : ℚ := (polarity + 1) / 2
  let rawScores : Scores :=
    if polarity = 0 then ⟨33/100, 33/100, 34/100⟩
    else ⟨normalized, 1 - normalized, (1 - |polarity|) * (1/2)⟩
  let tot := rawScores.total
  if 0 < tot then rawScores.divBy tot else rawScores

/-- The label/confidence assignment and final result of
`TextBlobAnalyzer.analyze`. -/
def TextBlobAnalyzer.analyze (polarity : ℚ) : AnalysisResult :=
  let sentiment : SentimentLabel :=
    if 1/10 < polarity then .positive
    else if polarity < -(1/10) then .negative
    else .neutral
  let confidence : ℚ :=
    if 1/10 < polarity then polarity
    else if polarity < -(1/10) then |polarity|
    else 1 - |polarity|
  ⟨sentiment, confidence, textblobScores polarity⟩

/-- `VaderAnalyzer.analyze` (`vader_analyzer.py`, lines 23-64) as a function
of the `pos`, `neg`, `neu`, `compound` values returned by
`SentimentIntensityAnalyzer.polarity_scores`. -/
def VaderAnalyzer.analyze (p n u compound : ℚ) : AnalysisResult :=
  let sentiment : SentimentLabel :=
    if 1/20 ≤ compound then .positive
    else if compound ≤ -(1/20) then .negative
    else .neutral
  let confidence : ℚ :=
    if 1/20 ≤ compound then p
    else if compound ≤ -(1/20) then n
    else u
  ⟨sentiment, confidence, ⟨p, n, u⟩⟩

/-! ## Ensemble combiner (`ensemble_analyzer.py`, lines 69-115)

Each configured adapter is modelled as a pair of its dict key and the
outcome of its `analyze` call: `some r` on success, `none` when the call
raised and the `except` branch skipped it. -/

/-- One iteration of the score-combination loop (lines 86-98): a surviving
adapter adds `score * weight` to each combined component, a raising adapter
leaves the accumulator unchanged. -/
def combineStep (w : String → ℚ) (acc : Scores) (nr : String × Option AnalysisResult) : Scores :=
  match nr.2 with
  | some r => ⟨acc.pos + r.scores.pos * w nr.1,
               acc.neg + r.scores.neg * w nr.1,
               acc.neu + r.scores.neu * w nr.1⟩
  | none => acc

/-- The accumulated `combined_scores` after the loop, starting from the
all-zero dict of line 83. -/
def combineScores (w : String → ℚ) (runs : List (String × Option AnalysisResult)) : Scores :=
  runs.foldl (combineStep w) ⟨0, 0, 0⟩

/-- `EnsembleAnalyzer.analyze` (lines 69-115): raises `ValueError` when no
analyzers are configured, otherwise combines the surviving adapters,
renormalizes only when the accumulated total is positive, and picks the
final label by dict-order argmax.  `SentimentAnalyzer._ensemble_analyze`
(`sentiment_analyzer.py`, lines 139-181) runs the same combination loop
without the empty-dict check. -/
def EnsembleAnalyzer.analyze (w : String → ℚ)
    (runs : List (String × Option AnalysisResult)) : Except String AnalysisResult :=
  if runs.isEmpty then .error "No analyzers configured"
  else
    let combined := combineScores w runs
    let tot := combined.total
    let final := if 0 < tot then combined.divBy tot else combined
    let lbl := argmaxPNN final
    .ok ⟨lbl, final.get lbl, final⟩

/-- The total weighted mass the surviving adapters contribute. -/
def contribSum (w : String → ℚ) : List (String × Option AnalysisResult) → ℚ
  | [] => 0
  | (n, some r) :: rest => w n * r.scores.total + contribSum w rest
  | (_, none) :: rest => contribSum w rest

lemma foldl_combineStep_total (w : String → ℚ)
    (runs : List (String × Option AnalysisResult)) :
    ∀ acc : Scores, (runs.foldl (combineStep w) acc).total = acc.total + contribSum w runs := by
  induction runs with
  | nil => intro acc; simp [contribSum]
  | cons hd tl ih =>
    intro acc
    obtain ⟨n, o⟩ := hd
    cases o with
    | none => simp [combineStep, contribSum, ih]
    | some r =>
      simp only [List.foldl_cons, combineStep, contribSum, ih]
      simp [Scores.total]
      ring

lemma combineScores_total (w : String → ℚ) (runs : List (String × Option AnalysisResult)) :
    (combineScores w runs).total = contribSum w runs := by
  have h := foldl_combineStep_total w runs ⟨0, 0, 0⟩
  simpa [combineScores, Scores.total] using h

lemma contribSum_pos (w : String → ℚ) (runs : List (String × Option AnalysisResult))
    (n₀ : String) (r₀ : AnalysisResult) (hmem : (n₀, some r₀) ∈ runs)
    (h₀ : 0 < w n₀ * r₀.scores.total)
    (hall : ∀ n r, (n, some r) ∈ runs → 0 ≤ w n * r.scores.total) :
    0 < contribSum w runs := by
  induction runs with
  | nil => simp at hmem
  | cons hd tl ih =>
    obtain ⟨n, o⟩ := hd
    rcases List.mem_cons.mp hmem with heq | htl
    · obtain ⟨h1, h2⟩ := Prod.mk.injEq .. ▸ heq
      subst h1
      cases h2
      have hrest : 0 ≤ contribSum w tl := by
        clear hmem ih
        induction tl with
        | nil => simp [contribSum]
        | cons hd' tl' ih' =>
          obtain ⟨n', o'⟩ := hd'
          cases o' with
          | none =>
            simp only [contribSum]
            exact ih' (fun n r hm => hall n r (by simp [List.mem_cons] at hm ⊢; tauto))
          | some r' =>
            simp only [contribSum]
            have := hall n' r' (by simp)
            have := ih' (fun n r hm => hall n r (by simp [List.mem_cons] at hm ⊢; tauto))
            linarith
      simp only [contribSum]
      linarith
    · cases o with
      | none =>
        simp only [contribSum]
        exact ih htl (fun n r hm => hall n r (List.mem_cons_of_mem _ hm))
      | some r =>
        simp only [contribSum]
        have := hall n r (by simp)
        have := ih htl (fun n r hm => hall n r (List.mem_cons_of_mem _ hm))
        linarith

lemma foldl_combineStep_none (w : String → ℚ)
    (runs : List (String × Option AnalysisResult))
    (hall : ∀ x ∈ runs, x.2 = (none : Option AnalysisResult)) :
    ∀ acc : Scores, runs.foldl (combineStep w) acc = acc := by
  induction runs with
  | nil => intro acc; simp
  | cons hd tl ih =>
    intro acc
    have hhd : hd.2 = none := hall hd (by simp)
    simp only [List.foldl_cons, combineStep, hhd]
    exact ih (fun x hx => hall x (List.mem_cons_of_mem _ hx)) acc

lemma divBy_self_total (s : Scores) (h : 0 < s.total) : (s.divBy s.total).total = 1 := by
  have hne : s.total ≠ 0 := ne_of_gt h
  simp only [Scores.divBy, Scores.total] at *
  field_simp

lemma get_argmaxPNN_ge (s : Scores) :
    s.pos ≤ s.get (argmaxPNN s) ∧ s.neg ≤ s.get (argmaxPNN s) ∧ s.neu ≤ s.get (argmaxPNN s) := by
  unfold argmaxPNN
  split_ifs with h1 h2 h3 <;> simp [Scores.get] <;> constructor <;> linarith

lemma argmaxPNN_iff (s : Scores) :
    (argmaxPNN s = .positive ↔ s.neg ≤ s.pos ∧ s.neu ≤ s.pos)
    ∧ (argmaxPNN s = .negative ↔ s.pos < s.neg ∧ s.neu ≤ s.neg)
    ∧ (argmaxPNN s = .neutral ↔ s.pos < s.neu ∧ s.neg < s.neu) := by
  unfold argmaxPNN
  split_ifs with h1 h2 h3
  · exact ⟨⟨fun h => h.elim, fun h => absurd h.1 (not_le.mpr h1)⟩,
      ⟨fun h => h.elim, fun h => absurd h.2 (not_le.mpr h2)⟩,
      ⟨fun _ => ⟨lt_trans h1 h2, h2⟩, fun _ => rfl⟩⟩
  · have h2' : s.neu ≤ s.neg := not_lt.mp h2
    exact ⟨⟨fun h => h.elim, fun h => absurd h.1 (not_le.mpr h1)⟩,
      ⟨fun _ => ⟨h1, h2'⟩, fun _ => rfl⟩,
      ⟨fun h => h.elim, fun h => absurd h.2 (not_lt.mpr h2')⟩⟩
  · have h1' : s.neg ≤ s.pos := not_lt.mp h1
    exact ⟨⟨fun h => h.elim, fun h => absurd h3 (not_lt.mpr h.2)⟩,
      ⟨fun h => h.elim, fun h => absurd h.1 (not_lt.mpr h1')⟩,
      ⟨fun _ => ⟨h3, lt_of_le_of_lt h1' h3⟩, fun _ => rfl⟩⟩
  · have h1' : s.neg ≤ s.pos := not_lt.mp h1
    have h3' : s.neu ≤ s.pos := not_lt.mp h3
    exact ⟨⟨fun _ => ⟨h1', h3'⟩, fun _ => rfl⟩,
      ⟨fun h => h.elim, fun h => absurd h.1 (not_lt.mpr h1')⟩,
      ⟨fun h => h.elim, fun h => absurd h.1 (not_lt.mpr h3')⟩⟩

/-! ## Claim C1 -/

/-- The per-call outcomes when every one of the three default adapters
raises during the call. -/
def runsAllFail : List (String × Option AnalysisResult) :=
  [("vader", none), ("textblob", none), ("transformer", none)]

/-- The normalized default weight table of `EnsembleAnalyzer.__init__`
(0.4 / 0.3 / 0.3), looked up by `self.weights.get(name, 0.0)`. -/
def defaultWeights : String → ℚ := fun n =>
  if n = "vader" then 2/5
  else if n = "textblob" then 3/10
  else if n = "transformer" then 3/10
  else 0

/-- C1 counterexample: when every configured adapter raises, the ensemble
combiner does NOT fail with a distinguishable error condition; it returns a
success result with the unrenormalized all-zero distribution, label
`positive` (dict-order argmax over all-equal zeros) and confidence `0.0` —
exactly the default low-confidence success the claim rules out. -/
theorem C1_counterexample :
    EnsembleAnalyzer.analyze defaultWeights runsAllFail
      = .ok ⟨SentimentLabel.positive, 0, ⟨0, 0, 0⟩⟩ := by
  simp only [EnsembleAnalyzer.analyze, combineScores, combineStep, runsAllFail,
    List.foldl_cons, List.foldl_nil, List.isEmpty_cons, Bool.false_eq_true, if_false]
  norm_num [Scores.total, argmaxPNN, Scores.get]

/-- C1 (amended): `EnsembleAnalyzer.analyze` raises its
`ValueError("No analyzers configured")` exactly when the configured adapter
set is empty; when adapters are configured but every one of them raises
during the call, it returns the success result with all-zero scores, label
`positive` and confidence `0.0` instead of failing. -/
theorem C1_amended (w : String → ℚ) (runs : List (String × Option AnalysisResult)) :
    (runs = [] → EnsembleAnalyzer.analyze w runs = .error "No analyzers configured")
    ∧ (runs ≠ [] → (∀ x ∈ runs, x.2 = (none : Option AnalysisResult)) →
        EnsembleAnalyzer.analyze w runs = .ok ⟨SentimentLabel.positive, 0, ⟨0, 0, 0⟩⟩) := by
  constructor
  · intro h; subst h; rfl
  · intro hne hall
    have hc : combineScores w runs = ⟨0, 0, 0⟩ := foldl_combineStep_none w runs hall ⟨0, 0, 0⟩
    have hEmpty : runs.isEmpty = false := by
      cases runs with
      | nil => exact absurd rfl hne
      | cons a l => rfl
    simp only [EnsembleAnalyzer.analyze, hEmpty, Bool.false_eq_true, if_false, hc]
    norm_num [Scores.total, argmaxPNN, Scores.get]

/-- Witness for C1 (amended) at the concrete all-failing run list. -/
theorem C1_amended_witness :
    runsAllFail ≠ [] ∧
    EnsembleAnalyzer.analyze defaultWeights runsAllFail
      = .ok ⟨SentimentLabel.positive, 0, ⟨0, 0, 0⟩⟩ :=
  ⟨by simp [runsAllFail],
   (C1_amended defaultWeights runsAllFail).2 (by simp [runsAllFail]) (by decide)⟩

/-! ## Claim C3 -/

/-- C3 counterexample: a TextBlob polarity of exactly +0.05 — which the
claim says must map to `positive` — is classified `neutral` by the TextBlob
adapter, whose deadband is the strict interval (−0.1, 0.1). -/
theorem C3_counterexample :
    (TextBlobAnalyzer.analyze (1/20)).sentiment = SentimentLabel.neutral
      ∧ SentimentLabel.neutral ≠ SentimentLabel.positive := by
  refine ⟨?_, by decide⟩
  norm_num [TextBlobAnalyzer.analyze]

/-- C3 (amended): only the VADER adapter follows the documented ±0.05
deadband, with both boundaries mapping to the polar labels; the TextBlob
adapter uses the wider strict deadband ±0.1, under which both boundaries
map to `neutral`. -/
theorem C3_amended (polarity p n u compound : ℚ) :
    ((VaderAnalyzer.analyze p n u compound).sentiment = .positive ↔ 1/20 ≤ compound)
    ∧ ((VaderAnalyzer.analyze p n u compound).sentiment = .negative ↔ compound ≤ -(1/20))
    ∧ ((VaderAnalyzer.analyze p n u compound).sentiment = .neutral ↔
        -(1/20) < compound ∧ compound < 1/20)
    ∧ ((TextBlobAnalyzer.analyze polarity).sentiment = .positive ↔ 1/10 < polarity)
    ∧ ((TextBlobAnalyzer.analyze polarity).sentiment = .negative ↔ polarity < -(1/10))
    ∧ ((TextBlobAnalyzer.analyze polarity).sentiment = .neutral ↔
        -(1/10) ≤ polarity ∧ polarity ≤ 1/10) := by
  simp only [VaderAnalyzer.analyze, TextBlobAnalyzer.analyze]
  refine ⟨?_, ?_, ?_, ?_, ?_, ?_⟩ <;>
    (split_ifs with h1 h2 <;>
      simp <;>
      first
        | linarith
        | (constructor <;> linarith)
        | (intro h; linarith))

/-! ## Claim C7 -/

/-- C7 counterexample: at scalar polarity exactly 1 the synthesized neutral
component `(1 − |polarity|) * 0.5` is zero, so the distribution is not
"always" reserving a strictly non-zero neutral share. -/
theorem C7_counterexample : (TextBlobAnalyzer.analyze 1).scores.neu = 0 := by
  norm_num [TextBlobAnalyzer.analyze, textblobScores, Scores.total, Scores.divBy]

/-- C7 (amended): the TextBlob adapter reserves a strictly positive neutral
component, derived from `1 − |polarity|`, for every polarity scalar strictly
inside (−1, 1); at the extremes ±1 the neutral component is zero. -/
theorem C7_amended (p : ℚ) (h1 : -1 < p) (h2 : p < 1) :
    0 < (TextBlobAnalyzer.analyze p).scores.neu := by
  have habs : |p| < 1 := abs_lt.mpr ⟨h1, h2⟩
  have hbase : (0:ℚ) < 1 - |p| := by linarith
  show 0 < (textblobScores p).neu
  by_cases hp : p = 0
  · subst hp; norm_num [textblobScores, Scores.total, Scores.divBy]
  · have hneu : 0 < (1 - |p|) * (1/2 : ℚ) := by positivity
    simp only [textblobScores, if_neg hp]
    split_ifs with hq
    · simp only [Scores.divBy]
      exact div_pos hneu hq
    · exfalso
      apply hq
      simp only [Scores.total]
      linarith

/-- Witness for C7 (amended) at polarity 1/2. -/
theorem C7_witness :
    (-1 : ℚ) < 1/2 ∧ (1:ℚ)/2 < 1 ∧ 0 < (TextBlobAnalyzer.analyze (1/2)).scores.neu :=
  ⟨by norm_num, by norm_num, C7_amended (1/2) (by norm_num) (by norm_num)⟩

/-! ## Claim C8 -/

/-- C8: the label of every successful ensemble result is the argmax of the
combined score distribution under the stable dict iteration order
`positive → negative → neutral`: `positive` wins all exact ties, `negative`
must strictly beat `positive` and survive ties with `neutral`, and
`neutral` must strictly beat both. -/
theorem C8_ensemble_argmax (w : String → ℚ) (runs : List (String × Option AnalysisResult))
    (out : AnalysisResult) (h : EnsembleAnalyzer.analyze w runs = .ok out) :
    (out.sentiment = .positive ↔ out.scores.neg ≤ out.scores.pos ∧ out.scores.neu ≤ out.scores.pos)
    ∧ (out.sentiment = .negative ↔ out.scores.pos < out.scores.neg ∧ out.scores.neu ≤ out.scores.neg)
    ∧ (out.sentiment = .neutral ↔ out.scores.pos < out.scores.neu ∧ out.scores.neg < out.scores.neu) := by
  unfold EnsembleAnalyzer.analyze at h
  split at h
  · exact absurd h (by simp)
  · rw [Except.ok.injEq] at h
    subst h
    exact argmaxPNN_iff _

/-- A single surviving adapter whose positive and negative shares tie
exactly. -/
def runsTie : List (String × Option AnalysisResult) :=
  [("vader", some ⟨.positive, 1/2, ⟨1/2, 1/2, 0⟩⟩)]

/-- The weight table that gives every strategy weight 1. -/
def unitW : String → ℚ := fun _ => 1

/-- Witness for C8: on an exact positive/negative tie the returned label is
`positive`. -/
theorem C8_witness :
    ∃ out, EnsembleAnalyzer.analyze unitW runsTie = .ok out
      ∧ out.scores.pos = out.scores.neg ∧ out.sentiment = .positive := by
  have h : EnsembleAnalyzer.analyze unitW runsTie
      = .ok ⟨SentimentLabel.positive, 1/2, ⟨1/2, 1/2, 0⟩⟩ := by
    simp only [EnsembleAnalyzer.analyze, combineScores, combineStep, runsTie, unitW,
      List.foldl_cons, List.foldl_nil, List.isEmpty_cons, Bool.false_eq_true, if_false]
    norm_num [Scores.total, Scores.divBy, argmaxPNN, Scores.get]
  exact ⟨_, h, by norm_num, ((C8_ensemble_argmax unitW runsTie _ h).1).mpr (by norm_num)⟩

/-! ## Claim C10 -/

/-- C10: whenever the accumulated combined scores have strictly positive
total, the ensemble renormalizes them to a distribution summing to 1 and
returns as confidence its maximal component, which is therefore at least
1/3. -/
theorem C10_confidence_lower_bound (w : String → ℚ)
    (runs : List (String × Option AnalysisResult))
    (h : 0 < (combineScores w runs).total) :
    ∃ out, EnsembleAnalyzer.analyze w runs = .ok out
      ∧ out.scores.total = 1 ∧ 1/3 ≤ out.confidence := by
  have hEmpty : runs.isEmpty = false := by
    cases runs with
    | nil => simp [combineScores, Scores.total] at h
    | cons a l => rfl
  have htot1 : ((combineScores w runs).divBy (combineScores w runs).total).total = 1 :=
    divBy_self_total _ h
  simp only [EnsembleAnalyzer.analyze, hEmpty, Bool.false_eq_true, if_false, if_pos h]
  refine ⟨_, rfl, htot1, ?_⟩
  obtain ⟨hp, hn, hu⟩ := get_argmaxPNN_ge ((combineScores w runs).divBy (combineScores w runs).total)
  have hsum : ((combineScores w runs).divBy (combineScores w runs).total).pos
      + ((combineScores w runs).divBy (combineScores w runs).total).neg
      + ((combineScores w runs).divBy (combineScores w runs).total).neu = 1 := htot1
  linarith

/-- Witness for C10 at a concrete one-adapter run with positive mass. -/
theorem C10_witness :
    0 < (combineScores unitW runsTie).total ∧
    ∃ out, EnsembleAnalyzer.analyze unitW runsTie = .ok out
      ∧ out.scores.total = 1 ∧ 1/3 ≤ out.confidence := by
  have hpos : 0 < (combineScores unitW runsTie).total := by
    norm_num [combineScores, combineStep, runsTie, unitW, Scores.total]
  exact ⟨hpos, C10_confidence_lower_bound unitW runsTie hpos⟩

/-! ## Character-level text model

Python strings are modelled as lists of Unicode code points; the character
classes below are the ASCII meaning of the classes the source's regexes and
string methods use. -/

/-- A Python string as its list of code points. -/
def strCodes (s : String) : List ℕ := s.data.map Char.toNat

def isDigitCode (c : ℕ) : Bool := decide (48 ≤ c ∧ c ≤ 57)

def isUpperCode (c : ℕ) : Bool := decide (65 ≤ c ∧ c ≤ 90)

def isLowerCode (c : ℕ) : Bool := decide (97 ≤ c ∧ c ≤ 122)

def isAlphaCode (c : ℕ) : Bool := isUpperCode c || isLowerCode c

def isAlnumCode (c : ℕ) : Bool := isAlphaCode c || isDigitCode c

/-- The regex word class `\w` (ASCII): letters, digits, underscore. -/
def isWordCode (c : ℕ) : Bool := isAlnumCode c || decide (c = 95)

/-- The regex class `\s` and `str.split` / `str.strip` whitespace (ASCII):
space, tab, newline, carriage return, vertical tab, form feed. -/
def isSpaceCode (c : ℕ) : Bool := decide (c = 32 ∨ c = 9 ∨ c = 10 ∨ c = 13 ∨ c = 11 ∨ c = 12)

/-- `str.lower` on ASCII letters. -/
def lowerCode (c : ℕ) : ℕ := if 65 ≤ c ∧ c ≤ 90 then c + 32 else c

def lowerStr (l : List ℕ) : List ℕ := l.map lowerCode

def isPrefixCodes : List ℕ → List ℕ → Bool
  | [], _ => true
  | _ :: _, [] => false
  | c :: cs, d :: ds => c == d && isPrefixCodes cs ds

/-- Python `needle in hay` on strings: contiguous substring containment. -/
def containsSub (needle : List ℕ) : List ℕ → Bool
  | [] => isPrefixCodes needle []
  | d :: ds => isPrefixCodes needle (d :: ds) || containsSub needle ds

def countWordsAux : Bool → List ℕ → ℕ
  | _, [] => 0
  | inWord, c :: rest =>
    if isSpaceCode c then countWordsAux false rest
    else (if inWord then 0 else 1) + countWordsAux true rest

/-- `len(text.split())`: the number of maximal runs of non-whitespace. -/
def countWords (l : List ℕ) : ℕ := countWordsAux false l

/-! ## Transformer adapter (`transformer_analyzer.py`) -/

/-- The positive lexicon of `_fallback_analysis` (lines 163-164). -/
def positiveWords : List (List ℕ) :=
  [strCodes "good", strCodes "great", strCodes "excellent", strCodes "amazing",
   strCodes "wonderful", strCodes "fantastic", strCodes "love", strCodes "like",
   strCodes "best", strCodes "awesome"]

/-- The negative lexicon of `_fallback_analysis` (lines 165-166). -/
def negativeWords : List (List ℕ) :=
  [strCodes "bad", strCodes "terrible", strCodes "awful", strCodes "horrible",
   strCodes "hate", strCodes "worst", strCodes "poor", strCodes "disappointing",
   strCodes "sad", strCodes "angry"]

/-- `sum(1 for word in words if word in text_lower)`. -/
def countHits (ws : List (List ℕ)) (textLower : List ℕ) : ℕ :=
  (ws.filter (fun w => containsSub w textLower)).length

/-- `TransformerAnalyzer._fallback_analysis` (lines 152-197): deterministic
keyword-count classifier with confidence `min(0.8, count / max(total_words *
0.1, 1))`. -/
def fallbackAnalysis (text : List ℕ) : AnalysisResult :=
  let lower := lowerStr text
  let posCount := countHits positiveWords lower
  let negCount := countHits negativeWords lower
  let totalWords : ℚ := countWords text
  if negCount < posCount then
    let confidence := min (4/5) ((posCount : ℚ) / max (totalWords * (1/10)) 1)
    ⟨.positive, confidence, ⟨confidence, (1 - confidence) * (3/10), (1 - confidence) * (7/10)⟩⟩
  else if posCount < negCount then
    let confidence := min (4/5) ((negCount : ℚ) / max (totalWords * (1/10)) 1)
    ⟨.negative, confidence, ⟨(1 - confidence) * (3/10), confidence, (1 - confidence) * (7/10)⟩⟩
  else
    ⟨.neutral, 3/5, ⟨3/10, 3/10, 4/10⟩⟩

/-- One assignment of the label-mapping loop of
`TransformerAnalyzer._parse_results` (lines 122-138): later entries with the
same mapped label overwrite earlier ones. -/
def parseStep (acc : Scores) (entry : List ℕ × ℚ) : Scores :=
  let label := lowerStr entry.1
  let score := entry.2
  if containsSub (strCodes "pos") label || label == strCodes "label_2" then
    { acc with pos := score }
  else if containsSub (strCodes "neg") label || label == strCodes "label_0" then
    { acc with neg := score }
  else if containsSub (strCodes "neu") label || label == strCodes "label_1" then
    { acc with neu := score }
  else if label == strCodes "positive" then { acc with pos := score }
  else if label == strCodes "negative" then { acc with neg := score }
  else if label == strCodes "neutral" then { acc with neu := score }
  else acc

/-- `TransformerAnalyzer._parse_results` (lines 110-150), including the
redistribution that reserves a 0.1 neutral component when the model reports
no neutral mass. -/
def parseResults (rs : List (List ℕ × ℚ)) : Scores :=
  let s := rs.foldl parseStep ⟨0, 0, 0⟩
  if s.neu = 0 then
    if 0 < s.pos + s.neg then ⟨s.pos * (9/10), s.neg * (9/10), 1/10⟩ else s
  else s

/-- The `text[:512]` truncation of `TransformerAnalyzer.analyze`
(lines 85-87), applied before inference. -/
def truncate512 (text : List ℕ) : List ℕ :=
  if 512 < text.length then text.take 512 else text

/-- `TransformerAnalyzer.analyze` (lines 69-108).  The pipeline handle is
`none` when model loading failed (`self.pipeline is None`); an available
pipeline is a function whose `.error` outcome models any exception raised
during inference or result extraction, which the source's `except` branch
turns into a fallback classification of the (already truncated) text. -/
def TransformerAnalyzer.analyze
    (pipe : Option (List ℕ → Except Unit (List (List ℕ × ℚ)))) (text : List ℕ) :
    Except Unit AnalysisResult :=
  match pipe with
  | none => .ok (fallbackAnalysis text)
  | some f =>
    let t := truncate512 text
    match f t with
    | .error _ => .ok (fallbackAnalysis t)
    | .ok rs =>
      let s := parseResults rs
      let lbl := argmaxPNN s
      .ok ⟨lbl, s.get lbl, s⟩

/-! ## Claim C4 -/

/-- C4: the transformer adapter never propagates an exception: it always
returns a result; with no loaded model it returns the keyword-count fallback
on the raw text; when inference raises it returns the fallback on the
truncated text; and over-long input is truncated to 512 characters before
inference rather than rejected. -/
theorem C4_transformer_never_fails
    (pipe : Option (List ℕ → Except Unit (List (List ℕ × ℚ)))) (text : List ℕ) :
    (∃ r, TransformerAnalyzer.analyze pipe text = .ok r)
    ∧ TransformerAnalyzer.analyze none text = .ok (fallbackAnalysis text)
    ∧ (∀ f, pipe = some f → ∀ e, f (truncate512 text) = .error e →
        TransformerAnalyzer.analyze pipe text = .ok (fallbackAnalysis (truncate512 text)))
    ∧ (∀ f : List ℕ → Except Unit (List (List ℕ × ℚ)), 512 < text.length →
        TransformerAnalyzer.analyze (some f) text
          = TransformerAnalyzer.analyze (some f) (text.take 512)) := by
  refine ⟨?_, rfl, ?_, ?_⟩
  · cases pipe with
    | none => exact ⟨_, rfl⟩
    | some f =>
      unfold TransformerAnalyzer.analyze
      dsimp only
      cases hf : f (truncate512 text) with
      | error e => exact ⟨fallbackAnalysis (truncate512 text), rfl⟩
      | ok rs =>
        exact ⟨⟨argmaxPNN (parseResults rs),
                (parseResults rs).get (argmaxPNN (parseResults rs)),
                parseResults rs⟩, rfl⟩
  · intro f hp e hf
    subst hp
    unfold TransformerAnalyzer.analyze
    simp [hf]
  · intro f hlen
    have ht : truncate512 (text.take 512) = truncate512 text := by
      unfold truncate512
      rw [if_pos hlen]
      have hl : (text.take 512).length = 512 := by
        rw [List.length_take]
        omega
      rw [if_neg (by omega)]
  -- hmm
    unfold TransformerAnalyzer.analyze
    rw [ht]

/-- A pipeline handle whose every invocation raises. -/
def failingPipe : Option (List ℕ → Except Unit (List (List ℕ × ℚ))) :=
  some (fun _ => .error ())

/-- Witness for C4: a raising pipeline on a short text yields the fallback
classification of that text. -/
theorem C4_witness :
    TransformerAnalyzer.analyze failingPipe (strCodes "bad movie")
      = .ok (fallbackAnalysis (strCodes "bad movie")) := by
  have h := (C4_transformer_never_fails failingPipe (strCodes "bad movie")).2.2.1
    (fun _ => .error ()) rfl () rfl
  have ht : truncate512 (strCodes "bad movie") = strCodes "bad movie" := by decide
  rwa [ht] at h

/-! ## Claim C2 -/

lemma textblob_total_one (p : ℚ) (hp : |p| ≤ 1) : (textblobScores p).total = 1 := by
  by_cases hp0 : p = 0
  · subst hp0
    norm_num [textblobScores, Scores.total, Scores.divBy]
  · simp only [textblobScores, if_neg hp0]
    split_ifs with hq
    · exact divBy_self_total _ hq
    · exfalso
      apply hq
      simp only [Scores.total]
      linarith

lemma fallback_total_one (text : List ℕ) : (fallbackAnalysis text).scores.total = 1 := by
  simp only [fallbackAnalysis]
  split_ifs with h1 h2 <;> simp only [Scores.total] <;> ring

/-- C2: every adapter variant and, when at least one positively-weighted
adapter succeeds, the combined ensemble return a score distribution over
{positive, negative, neutral} summing to exactly 1 (hence within the 1e-6
tolerance).  The VADER conclusion assumes the vaderSentiment library
invariant `pos + neg + neu = 1`; the transformer success path is stated for
model outputs that are distributions over the standard three labels, with
redistribution handling the no-neutral-mass case. -/
theorem C2_scores_sum_one
    (p : ℚ) (hp : |p| ≤ 1)
    (v1 v2 v3 comp : ℚ) (hv : v1 + v2 + v3 = 1)
    (ftext : List ℕ)
    (a b c : ℚ) (ha : 0 ≤ a) (hb : 0 ≤ b) (hc : 0 ≤ c) (habc : a + b + c = 1)
    (w : String → ℚ) (runs : List (String × Option AnalysisResult))
    (n₀ : String) (r₀ : AnalysisResult) (hmem : (n₀, some r₀) ∈ runs)
    (hw₀ : 0 < w n₀)
    (hall : ∀ n r, (n, some r) ∈ runs → 0 ≤ w n ∧ r.scores.total = 1 ∧ r.scores.Nonneg) :
    (TextBlobAnalyzer.analyze p).scores.total = 1
    ∧ (VaderAnalyzer.analyze v1 v2 v3 comp).scores.total = 1
    ∧ (fallbackAnalysis ftext).scores.total = 1
    ∧ (parseResults
        [(strCodes "positive", a), (strCodes "negative", b), (strCodes "neutral", c)]).total = 1
    ∧ ∃ out, EnsembleAnalyzer.analyze w runs = .ok out ∧ out.scores.total = 1 := by
  refine ⟨textblob_total_one p hp, hv, fallback_total_one ftext, ?_, ?_⟩
  · have hloop : List.foldl parseStep ⟨0, 0, 0⟩
        [(strCodes "positive", a), (strCodes "negative", b), (strCodes "neutral", c)]
        = (⟨a, b, c⟩ : Scores) := rfl
    have hchar : parseResults
        [(strCodes "positive", a), (strCodes "negative", b), (strCodes "neutral", c)]
        = if c = 0 then
            (if 0 < a + b then ⟨a * (9/10), b * (9/10), 1/10⟩ else ⟨a, b, c⟩)
          else (⟨a, b, c⟩ : Scores) := by
      simp only [parseResults, hloop]
    rw [hchar]
    split_ifs with h1 h2
    · simp only [Scores.total]
      linarith
    · exact absurd (by linarith : (0:ℚ) < a + b) h2
    · simp only [Scores.total]
      exact habc
  · have hr₀ := hall n₀ r₀ hmem
    have hEmpty : runs.isEmpty = false := by
      cases runs with
      | nil => simp at hmem
      | cons x l => rfl
    have hpos : 0 < (combineScores w runs).total := by
      rw [combineScores_total]
      refine contribSum_pos w runs n₀ r₀ hmem ?_ ?_
      · rw [hr₀.2.1, mul_one]; exact hw₀
      · intro n r hm
        have h := hall n r hm
        rw [h.2.1, mul_one]
        exact h.1
    simp only [EnsembleAnalyzer.analyze, hEmpty, Bool.false_eq_true, if_false, if_pos hpos]
    exact ⟨_, rfl, divBy_self_total _ hpos⟩

/-- Witness for C2 at concrete adapter outputs and the one-adapter ensemble
run. -/
theorem C2_witness :
    (TextBlobAnalyzer.analyze (1/2)).scores.total = 1
    ∧ (VaderAnalyzer.analyze (1/2) (1/4) (1/4) (3/5)).scores.total = 1
    ∧ (fallbackAnalysis (strCodes "fine day")).scores.total = 1
    ∧ (parseResults
        [(strCodes "positive", 7/10), (strCodes "negative", 3/10), (strCodes "neutral", 0)]).total = 1
    ∧ ∃ out, EnsembleAnalyzer.analyze unitW runsTie = .ok out ∧ out.scores.total = 1 :=
  C2_scores_sum_one (1/2) (by norm_num [abs_of_pos])
    (1/2) (1/4) (1/4) (3/5) (by norm_num)
    (strCodes "fine day")
    (7/10) (3/10) 0 (by norm_num) (by norm_num) le_rfl (by norm_num)
    unitW runsTie "vader" ⟨.positive, 1/2, ⟨1/2, 1/2, 0⟩⟩ (by simp [runsTie])
    (by norm_num [unitW])
    (by
      intro n r hm
      simp only [runsTie, List.mem_cons, List.not_mem_nil, or_false] at hm
      obtain ⟨hn, hr⟩ := Prod.mk.injEq .. ▸ hm
      cases hr
      exact ⟨by norm_num [unitW], by norm_num [Scores.total], by norm_num [Scores.Nonneg]⟩)

/-! ## Text preprocessor (`text_preprocessor.py`)

The three removal stages model the source's `re.sub` calls: the scanner
walks the string left to right, removes each leftmost match and resumes
after it, and keeps the character otherwise.  Each worker recurses on an
explicit fuel initialized to the string length; every step consumes at
least one character, so the fuel never runs out on the initial call. -/

/-- `_remove_html_tags`: `re.sub(r'<[^>]+>', '', text)`.  At a `<` the
regex matches exactly when at least one non-`>` character is followed by a
`>`; the match is removed and scanning resumes after the `>`. -/
def removeHtmlAux : ℕ → List ℕ → List ℕ
  | 0, l => l
  | _, [] => []
  | fuel+1, c :: rest =>
    if c = 60 then
      let r := (rest.takeWhile (fun d => d != 62)).length
      if 0 < r ∧ r < rest.length then removeHtmlAux fuel (rest.drop (r + 1))
      else 60 :: removeHtmlAux fuel rest
    else c :: removeHtmlAux fuel rest

def removeHtmlTags (l : List ℕ) : List ℕ := removeHtmlAux l.length l

/-- The effective character class of the URL regex
`http[s]?://(?:[a-zA-Z]|[0-9]|[$-_@.&+]|[!*\(\),]|(?:%[0-9a-fA-F][0-9a-fA-F]))+`:
the range `$-_` (0x24-0x5F) already contains the digits, the uppercase
letters and every listed punctuation character except `!` and the lowercase
letters, and a `%` hex-escape contributes characters of the same class. -/
def urlCharCode (c : ℕ) : Bool := isLowerCode c || decide (36 ≤ c ∧ c ≤ 95) || decide (c = 33)

/-- Length of the URL match starting exactly at the head of `l`, if any:
literal `http`, an optional `s` (tried first, falling back to zero
occurrences exactly when the following `://` fails), literal `://`, then a
non-empty maximal run of URL characters. -/
def matchUrlLen : List ℕ → Option ℕ
  | 104 :: 116 :: 116 :: 112 :: rest =>
    match rest with
    | 115 :: 58 :: 47 :: 47 :: rest2 =>
      let run := (rest2.takeWhile urlCharCode).length
      if run = 0 then none else some (8 + run)
    | 58 :: 47 :: 47 :: rest2 =>
      let run := (rest2.takeWhile urlCharCode).length
      if run = 0 then none else some (7 + run)
    | _ => none
  | _ => none

def removeUrlsAux : ℕ → List ℕ → List ℕ
  | 0, l => l
  | _, [] => []
  | fuel+1, c :: rest =>
    match matchUrlLen (c :: rest) with
    | some k => removeUrlsAux fuel (rest.drop (k - 1))
    | none => c :: removeUrlsAux fuel rest

/-- `_remove_urls`: every match of the URL regex (length at least 8) is
removed and scanning resumes after it. -/
def removeUrls (l : List ℕ) : List ℕ := removeUrlsAux l.length l

/-- Local-part class `[A-Za-z0-9._%+-]` of the email regex. -/
def localCode (c : ℕ) : Bool := isAlnumCode c || decide (c = 46 ∨ c = 95 ∨ c = 37 ∨ c = 43 ∨ c = 45)

/-- Domain class `[A-Za-z0-9.-]` of the email regex. -/
def domainCode (c : ℕ) : Bool := isAlnumCode c || decide (c = 46 ∨ c = 45)

/-- Top-level-domain class `[A-Z|a-z]` of the email regex — the literal `|`
inside the bracket is part of the class. -/
def tldCode (c : ℕ) : Bool := isAlphaCode c || decide (c = 124)

/-- Word-character status of position `i` (false past the end), used for
the `\b` boundary tests. -/
def isWordAt (tl : List ℕ) (i : ℕ) : Bool :=
  match tl.drop i with
  | [] => false
  | c :: _ => isWordCode c

/-- `\b` between positions `m-1` and `m`. -/
def boundaryAfter (tl : List ℕ) (m : ℕ) : Bool :=
  isWordAt tl (m - 1) != isWordAt tl m

/-- Backtracking search for the `[A-Z|a-z]{2,}\b` tail: the engine tries
the maximal class run first and shrinks it while it is at least 2 until the
trailing boundary holds. -/
def searchTld (tl : List ℕ) : ℕ → Option ℕ
  | 0 => none
  | 1 => none
  | k+2 => if boundaryAfter tl (k+2) then some (k+2) else searchTld tl (k+1)

/-- Backtracking search for the split of `[A-Za-z0-9.-]+\.` inside the
maximal domain run: the engine shrinks the `+` part from its maximal length
(the character after a maximal run is never `.`, so candidates are the
positions of `.` inside the run, largest first), and for each candidate
runs the TLD search on the remainder. -/
def searchDot (rest2 : List ℕ) : ℕ → Option (ℕ × ℕ)
  | 0 => none
  | k+1 =>
    if rest2.getD (k+1) 0 = 46 then
      match (let tl := rest2.drop (k+2); searchTld tl (tl.takeWhile tldCode).length) with
      | some t => some (k+1, t)
      | none => searchDot rest2 k
    else searchDot rest2 k

/-- Length of the email-regex match
`\b[A-Za-z0-9._%+-]+@[A-Za-z0-9.-]+\.[A-Z|a-z]{2,}\b` starting exactly at
the head of `l`, given the word-status of the preceding character.  The
local part needs no backtracking because `@` is not in its class. -/
def matchEmailLen (prevWord : Bool) (l : List ℕ) : Option ℕ :=
  match l with
  | [] => none
  | c :: _ =>
    if isWordCode c == prevWord then none
    else
      let a := (l.takeWhile localCode).length
      if a = 0 then none
      else
        match l.drop a with
        | 64 :: rest2 =>
          let d := (rest2.takeWhile domainCode).length
          if d = 0 then none
          else
            match searchDot rest2 (d - 1) with
            | some (dl, t) => some (a + 1 + dl + 1 + t)
            | none => none
        | _ => none

def removeEmailsAux : ℕ → Bool → List ℕ → List ℕ
  | 0, _, l => l
  | _, _, [] => []
  | fuel+1, pw, c :: rest =>
    match matchEmailLen pw (c :: rest) with
    | some k => removeEmailsAux fuel (isWordCode ((c :: rest).getD (k - 1) 0)) ((c :: rest).drop k)
    | none => c :: removeEmailsAux fuel (isWordCode c) rest

/-- `_remove_emails`: every match is removed; the word-status context for
later `\b` tests is the last character of the match or the kept character. -/
def removeEmails (l : List ℕ) : List ℕ := removeEmailsAux l.length false l

/-- `re.sub(r'\s+', ' ', t)`: each maximal whitespace run becomes a single
space. -/
def squeezeWs : Bool → List ℕ → List ℕ
  | _, [] => []
  | prev, c :: rest =>
    if isSpaceCode c then
      (if prev then squeezeWs true rest else 32 :: squeezeWs true rest)
    else c :: squeezeWs false rest

/-- Remove the trailing whitespace run. -/
def dropTrail : List ℕ → List ℕ
  | [] => []
  | c :: rest =>
    match dropTrail rest with
    | [] => if isSpaceCode c then [] else [c]
    | r => c :: r

/-- `str.strip()`. -/
def stripWs (l : List ℕ) : List ℕ := dropTrail (l.dropWhile isSpaceCode)

/-- The final whitespace cleanup `re.sub(r'\s+', ' ', t).strip()` of
`preprocess` (line 142). -/
def cleanWs (l : List ℕ) : List ℕ := stripWs (squeezeWs false l)

/-- The keep-class `[a-zA-Z0-9\s.,!?;:\-\'"()]` of
`_remove_special_characters`. -/
def keepCode (c : ℕ) : Bool :=
  isAlnumCode c || isSpaceCode c ||
    decide (c = 46 ∨ c = 44 ∨ c = 33 ∨ c = 63 ∨ c = 59 ∨ c = 58 ∨ c = 45 ∨ c = 39 ∨ c = 34 ∨ c = 40 ∨ c = 41)

/-- The constructor toggles of `TextPreprocessor.__init__` with their
default values. -/
structure PreprocConfig where
  remove_urls : Bool := true
  remove_emails : Bool := true
  remove_html : Bool := true
  remove_special_chars : Bool := false
  lowercase : Bool := true
  remove_stopwords : Bool := false
  lemmatize : Bool := false
  stem : Bool := false

/-- `TextPreprocessor.preprocess` (lines 106-144).  `nltkStage` abstracts
`_apply_nltk_preprocessing`, whose tokenizer, stop-word list, lemmatizer
and stemmer live in the third-party NLTK resources outside this repository;
it is applied exactly when the source applies it — when NLTK is available
and at least one token-level toggle is set. -/
def preprocess (cfg : PreprocConfig) (nltkAvailable : Bool) (nltkStage : List ℕ → List ℕ)
    (text : List ℕ) : List ℕ :=
  if text = [] then []
  else
    let t1 := if cfg.remove_html then removeHtmlTags text else text
    let t2 := if cfg.remove_urls then removeUrls t1 else t1
    let t3 := if cfg.remove_emails then removeEmails t2 else t2
    let t4 := if cfg.remove_special_chars then t3.filter keepCode else t3
    let t5 := if cfg.lowercase then lowerStr t4 else t4
    let t6 := if nltkAvailable && (cfg.remove_stopwords || cfg.lemmatize || cfg.stem)
              then nltkStage t5 else t5
    cleanWs t6

/-! ## Unified analyzer, batch, statistics (`sentiment_analyzer.py`) -/

/-- The `SentimentResult` dataclass (lines 28-36): its fields are exactly
`text`, `sentiment`, `confidence`, `scores`, `method`, `processing_time`. -/
structure SentimentResult where
  text : List ℕ
  sentiment : SentimentLabel
  confidence : ℚ
  scores : Scores
  method : String
  processing_time : ℚ
deriving DecidableEq, Repr

/-- `SentimentAnalyzer.analyze` (lines 66-102): optionally preprocess with
the default `TextPreprocessor()` configuration, dispatch to the selected
method (`inner` abstracts `_ensemble_analyze` or a single adapter,
including the `ValueError` for unknown method names), and package the
result.  `t` stands for the measured wall-clock duration.  The `text` field
of the result is set to the caller's raw `text` argument. -/
def SentimentAnalyzer.analyze (pre : Bool) (method : String)
    (inner : List ℕ → Except String AnalysisResult) (t : ℚ) (raw : List ℕ) :
    Except String SentimentResult :=
  let processed := if pre then preprocess {} false id raw else raw
  match inner processed with
  | .error e => .error e
  | .ok r => .ok ⟨raw, r.sentiment, r.confidence, r.scores, method, t⟩

/-- The synthetic substitute built in the `except` branch of
`analyze_batch` (lines 125-135): neutral label, confidence 0.0, scores
`{positive: 0, negative: 0, neutral: 1}`, zero processing time. -/
def errorResult (text : List ℕ) (method : String) : SentimentResult :=
  ⟨text, .neutral, 0, ⟨0, 0, 1⟩, method, 0⟩

/-- `SentimentAnalyzer.analyze_batch` (lines 104-137): one result is
appended per input text, in order; `res` gives the outcome of the per-item
`self.analyze` call, `none` when it raises. -/
def SentimentAnalyzer.analyzeBatch (method : String)
    (res : List ℕ → Option SentimentResult) (texts : List (List ℕ)) : List SentimentResult :=
  texts.map (fun t =>
    match res t with
    | some r => r
    | none => errorResult t method)

/-- The statistics dict of `get_statistics` (lines 192-221). -/
structure BatchStats where
  total_analyzed : ℕ
  distPos : ℚ
  distNeg : ℚ
  distNeu : ℚ
  average_confidence : ℚ
  total_processing_time : ℚ
  average_processing_time : ℚ
deriving DecidableEq, Repr

/-- `sentiments.count(label)`. -/
def countLabel (lbl : SentimentLabel) (rs : List SentimentResult) : ℕ :=
  (rs.filter (fun r => r.sentiment == lbl)).length

/-- `SentimentAnalyzer.get_statistics`: the empty input returns the empty
dict (modelled as `none`); otherwise every fraction and mean divides by the
full length of the results list. -/
def SentimentAnalyzer.getStatistics (rs : List SentimentResult) : Option BatchStats :=
  if rs.isEmpty then none
  else some
    { total_analyzed := rs.length
      distPos := (countLabel .positive rs : ℚ) / rs.length
      distNeg := (countLabel .negative rs : ℚ) / rs.length
      distNeu := (countLabel .neutral rs : ℚ) / rs.length
      average_confidence := (rs.map (fun r => r.confidence)).sum / rs.length
      total_processing_time := (rs.map (fun r => r.processing_time)).sum
      average_processing_time := (rs.map (fun r => r.processing_time)).sum / rs.length }

/-! ## Claim C5 -/

/-- C5: batch analysis returns exactly one result per input text in input
order — the i-th output is the i-th item's own result, or the synthetic
all-neutral confidence-0 substitute when that item's analysis raises — and
on a non-empty batch the statistics count the full input length, which is
also the denominator of every label-distribution fraction. -/
theorem C5_batch_semantics (method : String) (res : List ℕ → Option SentimentResult)
    (texts : List (List ℕ)) :
    (SentimentAnalyzer.analyzeBatch method res texts).length = texts.length
    ∧ (∀ (i : ℕ) (h : i < (SentimentAnalyzer.analyzeBatch method res texts).length)
         (h2 : i < texts.length),
        (SentimentAnalyzer.analyzeBatch method res texts).get ⟨i, h⟩
          = match res (texts.get ⟨i, h2⟩) with
            | some r => r
            | none => errorResult (texts.get ⟨i, h2⟩) method)
    ∧ (texts ≠ [] → ∃ st,
        SentimentAnalyzer.getStatistics (SentimentAnalyzer.analyzeBatch method res texts)
          = some st
        ∧ st.total_analyzed = texts.length
        ∧ st.distPos
            = (countLabel .positive (SentimentAnalyzer.analyzeBatch method res texts) : ℚ)
              / texts.length
        ∧ st.distNeg
            = (countLabel .negative (SentimentAnalyzer.analyzeBatch method res texts) : ℚ)
              / texts.length
        ∧ st.distNeu
            = (countLabel .neutral (SentimentAnalyzer.analyzeBatch method res texts) : ℚ)
              / texts.length) := by
  have hlen : (SentimentAnalyzer.analyzeBatch method res texts).length = texts.length :=
    List.length_map _ _
  refine ⟨hlen, ?_, ?_⟩
  · intro i h h2
    simp only [SentimentAnalyzer.analyzeBatch, List.get_eq_getElem, List.getElem_map]
  · intro hne
    have hBatchNe : (SentimentAnalyzer.analyzeBatch method res texts).isEmpty = false := by
      rw [List.isEmpty_eq_false_iff_exists_mem]
      obtain ⟨x, hx⟩ := List.exists_mem_of_ne_nil texts hne
      exact ⟨_, List.mem_map_of_mem _ hx⟩
    simp only [SentimentAnalyzer.getStatistics, hBatchNe, Bool.false_eq_true, if_false]
    refine ⟨_, rfl, ?_, ?_, ?_, ?_⟩ <;> simp only [hlen]

/-- The spec scenario batch: a healthy text, the empty string, a negative
text. -/
def demoTexts : List (List ℕ) :=
  [strCodes "I love this!", strCodes "", strCodes "Terrible, worst ever."]

/-- A per-item analyzer outcome that raises exactly on the empty string. -/
def failOnEmpty : List ℕ → Option SentimentResult := fun t =>
  if t = [] then none
  else some ⟨t, .positive, 9/10, ⟨9/10, 1/20, 1/20⟩, "ensemble", 0⟩

/-- Witness for C5 on the spec's three-text batch with a
failing-on-empty-string quirk: three results come back and the statistics
count all three. -/
theorem C5_witness :
    (SentimentAnalyzer.analyzeBatch "ensemble" failOnEmpty demoTexts).length = 3
    ∧ ∃ st, SentimentAnalyzer.getStatistics
          (SentimentAnalyzer.analyzeBatch "ensemble" failOnEmpty demoTexts) = some st
        ∧ st.total_analyzed = 3 := by
  have h := C5_batch_semantics "ensemble" failOnEmpty demoTexts
  have h3 : demoTexts.length = 3 := by decide
  refine ⟨h.1.trans h3, ?_⟩
  obtain ⟨st, hst, hcount, _⟩ := h.2.2 (by decide)
  exact ⟨st, hst, hcount.trans h3⟩

/-! ## Claim C9 -/

/-- A raw input whose default preprocessing changes it. -/
def rawNiceDay : List ℕ := strCodes "Nice  DAY"

/-- A method dispatch that classifies every text the same way. -/
def innerConst : List ℕ → Except String AnalysisResult :=
  fun _ => .ok ⟨.positive, 1/2, ⟨1/2, 1/4, 1/4⟩⟩

/-- C9 counterexample: the result record of a single-text analyze call does
not carry the normalized text: its fields are exactly `text`, `sentiment`,
`confidence`, `scores`, `method`, `processing_time`, its only text-valued
field `text` holds the raw input, and the normalized text — which here
differs from the raw input — appears in no field. -/
theorem C9_counterexample :
    SentimentAnalyzer.analyze true "ensemble" innerConst 0 rawNiceDay
      = .ok ⟨rawNiceDay, .positive, 1/2, ⟨1/2, 1/4, 1/4⟩, "ensemble", 0⟩
    ∧ preprocess {} false id rawNiceDay = strCodes "nice day"
    ∧ rawNiceDay ≠ strCodes "nice day" := by
  exact ⟨rfl, by decide, by decide⟩

/-- C9 (amended): every successful result of a single-text analyze call
carries the caller's original raw text in its single `text` field and the
strategy name in `method`; the normalized text that was classified is not
part of the `SentimentResult`. -/
theorem C9_amended (pre : Bool) (method : String)
    (inner : List ℕ → Except String AnalysisResult) (t : ℚ) (raw : List ℕ)
    (r : SentimentResult)
    (h : SentimentAnalyzer.analyze pre method inner t raw = .ok r) :
    r.text = raw ∧ r.method = method := by
  unfold SentimentAnalyzer.analyze at h
  dsimp only at h
  cases hi : inner (if pre then preprocess {} false id raw else raw) with
  | error e =>
    rw [hi] at h
    exact absurd h (by simp)
  | ok ar =>
    rw [hi] at h
    rw [Except.ok.injEq] at h
    cases h
    exact ⟨rfl, rfl⟩

/-- Witness for C9 (amended) at the concrete call of the counterexample
scenario. -/
theorem C9_witness :
    (⟨rawNiceDay, .positive, 1/2, ⟨1/2, 1/4, 1/4⟩, "ensemble", 0⟩ : SentimentResult).text
        = rawNiceDay
    ∧ (⟨rawNiceDay, .positive, 1/2, ⟨1/2, 1/4, 1/4⟩, "ensemble", 0⟩ : SentimentResult).method
        = "ensemble" :=
  C9_amended true "ensemble" innerConst 0 rawNiceDay _ rfl

/-! ## Claim C6 -/

/-- C6 counterexample: the full default pipeline is not idempotent.  On
`"http:/a@b.co/x"` the email stage removes `a@b.co` and thereby splices the
surviving pieces into `"http://x"`, which the URL stage of a second pass
deletes entirely. -/
theorem C6_counterexample :
    preprocess {} false id (strCodes "http:/a@b.co/x") = strCodes "http://x"
    ∧ preprocess {} false id (preprocess {} false id (strCodes "http:/a@b.co/x"))
        ≠ preprocess {} false id (strCodes "http:/a@b.co/x")
    ∧ preprocess {} false id (preprocess {} false id (strCodes "http:/a@b.co/x")) = [] :=
  ⟨by decide, by decide, by decide⟩

/-! Auxiliary invariants for the whitespace-collapse stage: after
`re.sub(r'\s+', ' ', t).strip()` every whitespace character is a plain
space, no two adjacent characters are whitespace, and neither end is
whitespace.  A string with these properties is a fixed point of the
stage. -/

/-- Every whitespace character of the list is the plain space 32. -/
def AllSp32 (l : List ℕ) : Prop := ∀ c ∈ l, isSpaceCode c = true → c = 32

/-- No two adjacent characters are both whitespace. -/
def NoAdjSp : List ℕ → Prop
  | [] => True
  | [_] => True
  | c :: d :: rest => ¬(isSpaceCode c = true ∧ isSpaceCode d = true) ∧ NoAdjSp (d :: rest)

/-- The first character, if any, is not whitespace. -/
def HeadNotSp : List ℕ → Prop
  | [] => True
  | c :: _ => isSpaceCode c = false

/-- The last character, if any, is not whitespace. -/
def LastNotSp : List ℕ → Prop
  | [] => True
  | [c] => isSpaceCode c = false
  | _ :: rest => LastNotSp rest

lemma noAdjSp_tail {c : ℕ} {l : List ℕ} (h : NoAdjSp (c :: l)) : NoAdjSp l := by
  cases l with
  | nil => trivial
  | cons d rest => exact h.2

lemma noAdjSp_cons {c : ℕ} {l : List ℕ} (hl : NoAdjSp l)
    (hh : isSpaceCode c = true → HeadNotSp l) : NoAdjSp (c :: l) := by
  cases l with
  | nil => trivial
  | cons d rest =>
    refine ⟨fun ⟨h1, h2⟩ => ?_, hl⟩
    have := hh h1
    simp only [HeadNotSp] at this
    rw [this] at h2
    exact Bool.false_ne_true h2

lemma sq_all32 (l : List ℕ) : ∀ b, AllSp32 (squeezeWs b l) := by
  induction l with
  | nil => intro b c hc; simp [squeezeWs] at hc
  | cons c rest ih =>
    intro b d hd hsp
    by_cases hc : isSpaceCode c = true
    · simp only [squeezeWs, hc, if_true] at hd
      by_cases hb : b = true
      · subst hb
        simp only [if_true] at hd
        exact ih true d hd hsp
      · rw [Bool.not_eq_true] at hb
        subst hb
        simp only [Bool.false_eq_true, if_false, List.mem_cons] at hd
        rcases hd with h | h
        · exact h
        · exact ih true d h hsp
    · rw [Bool.not_eq_true] at hc
      simp only [squeezeWs, hc, Bool.false_eq_true, if_false, List.mem_cons] at hd
      rcases hd with h | h
      · subst h; rw [hc] at hsp; exact absurd hsp (by simp)
      · exact ih false d h hsp

lemma sq_head_true (l : List ℕ) : HeadNotSp (squeezeWs true l) := by
  induction l with
  | nil => trivial
  | cons c rest ih =>
    by_cases hc : isSpaceCode c = true
    · simpa only [squeezeWs, hc, if_true] using ih
    · rw [Bool.not_eq_true] at hc
      simp only [squeezeWs, hc, Bool.false_eq_true, if_false]
      exact hc

lemma sq_noAdj (l : List ℕ) : ∀ b, NoAdjSp (squeezeWs b l) := by
  induction l with
  | nil => intro b; trivial
  | cons c rest ih =>
    intro b
    by_cases hc : isSpaceCode c = true
    · simp only [squeezeWs, hc, if_true]
      by_cases hb : b = true
      · subst hb; simpa using ih true
      · rw [Bool.not_eq_true] at hb
        subst hb
        simp only [Bool.false_eq_true, if_false]
        exact noAdjSp_cons (ih true) (fun _ => sq_head_true rest)
    · rw [Bool.not_eq_true] at hc
      simp only [squeezeWs, hc, Bool.false_eq_true, if_false]
      exact noAdjSp_cons (ih false) (fun hsp => absurd hsp (by simp [hc]))

lemma noAdj_dropWhile (p : ℕ → Bool) (l : List ℕ) (h : NoAdjSp l) :
    NoAdjSp (l.dropWhile p) := by
  induction l with
  | nil => trivial
  | cons c rest ih =>
    rw [List.dropWhile_cons]
    split_ifs with hc
    · exact ih (noAdjSp_tail h)
    · exact h

lemma head_dropWhile_sp (l : List ℕ) : HeadNotSp (l.dropWhile isSpaceCode) := by
  induction l with
  | nil => trivial
  | cons c rest ih =>
    rw [List.dropWhile_cons]
    split_ifs with hc
    · exact ih
    · rw [Bool.not_eq_true] at hc
      exact hc

lemma dropTrail_head {l : List ℕ} {x : ℕ} {xs : List ℕ} (h : dropTrail l = x :: xs) :
    ∃ ys, l = x :: ys := by
  cases l with
  | nil => simp [dropTrail] at h
  | cons c rest =>
    refine ⟨rest, ?_⟩
    simp only [dropTrail] at h
    cases hdt : dropTrail rest with
    | nil =>
      rw [hdt] at h
      change (if isSpaceCode c = true then ([] : List ℕ) else [c]) = x :: xs at h
      split_ifs at h with hc
      all_goals injection h with h1 _
      all_goals rw [h1]
    | cons d r =>
      rw [hdt] at h
      change c :: d :: r = x :: xs at h
      injection h with h1 _
      rw [h1]

lemma mem_dropTrail (l : List ℕ) (c : ℕ) (h : c ∈ dropTrail l) : c ∈ l := by
  induction l with
  | nil => simpa [dropTrail] using h
  | cons d rest ih =>
    simp only [dropTrail] at h
    cases hdt : dropTrail rest with
    | nil =>
      rw [hdt] at h
      split_ifs at h with hc
      · exact absurd h (by simp)
      · simp only [List.mem_singleton] at h
        subst h
        exact List.mem_cons_self _ _
    | cons e r =>
      rw [hdt] at h
      rcases List.mem_cons.mp h with h1 | h1
      · subst h1; exact List.mem_cons_self _ _
      · exact List.mem_cons_of_mem _ (ih (hdt ▸ h1))

lemma noAdj_dropTrail (l : List ℕ) (h : NoAdjSp l) : NoAdjSp (dropTrail l) := by
  induction l with
  | nil => trivial
  | cons c rest ih =>
    simp only [dropTrail]
    cases hdt : dropTrail rest with
    | nil =>
      split_ifs with hc
      · trivial
      · trivial
    | cons d r =>
      refine noAdjSp_cons (hdt ▸ ih (noAdjSp_tail h)) (fun hsp => ?_)
      obtain ⟨ys, hys⟩ := dropTrail_head hdt
      subst hys
      simp only [HeadNotSp]
      by_contra hd
      rw [Bool.not_eq_false] at hd
      exact h.1 ⟨hsp, hd⟩

lemma head_dropTrail (l : List ℕ) (h : HeadNotSp l) : HeadNotSp (dropTrail l) := by
  cases hdt : dropTrail l with
  | nil => trivial
  | cons x xs =>
    obtain ⟨ys, hys⟩ := dropTrail_head hdt
    subst hys
    exact h

lemma last_dropTrail (l : List ℕ) : LastNotSp (dropTrail l) := by
  induction l with
  | nil => trivial
  | cons c rest ih =>
    simp only [dropTrail]
    cases hdt : dropTrail rest with
    | nil =>
      split_ifs with hc
      · trivial
      · rw [Bool.not_eq_true] at hc
        exact hc
    | cons d r =>
      rw [hdt] at ih
      exact ih

lemma dropTrail_id (l : List ℕ) (h : LastNotSp l) : dropTrail l = l := by
  induction l with
  | nil => rfl
  | cons c rest ih =>
    simp only [dropTrail]
    cases rest with
    | nil =>
      simp only [dropTrail]
      simp only [LastNotSp] at h
      rw [h]
      simp
    | cons d r =>
      have hrest : dropTrail (d :: r) = d :: r := ih h
      rw [hrest]

lemma sq_id (l : List ℕ) (h32 : AllSp32 l) (hadj : NoAdjSp l) :
    squeezeWs false l = l ∧ (HeadNotSp l → squeezeWs true l = l) := by
  induction l with
  | nil => exact ⟨rfl, fun _ => rfl⟩
  | cons c rest ih =>
    have h32r : AllSp32 rest := fun d hd => h32 d (List.mem_cons_of_mem _ hd)
    obtain ⟨ihf, iht⟩ := ih h32r (noAdjSp_tail hadj)
    by_cases hc : isSpaceCode c = true
    · have hc32 : c = 32 := h32 c (List.mem_cons_self _ _) hc
      have hhr : HeadNotSp rest := by
        cases rest with
        | nil => trivial
        | cons d r =>
          simp only [HeadNotSp]
          by_contra hd
          rw [Bool.not_eq_false] at hd
          exact hadj.1 ⟨hc, hd⟩
      constructor
      · simp only [squeezeWs, hc, if_true, Bool.false_eq_true, if_false]
        rw [iht hhr, hc32]
      · intro hh
        simp only [HeadNotSp] at hh
        rw [hh] at hc
        exact absurd hc (by simp)
    · rw [Bool.not_eq_true] at hc
      constructor
      · simp only [squeezeWs, hc, Bool.false_eq_true, if_false]
        rw [ihf]
      · intro _
        simp only [squeezeWs, hc, Bool.false_eq_true, if_false]
        rw [ihf]

lemma dropWhile_sp_id (l : List ℕ) (h : HeadNotSp l) : l.dropWhile isSpaceCode = l := by
  cases l with
  | nil => rfl
  | cons c rest =>
    rw [List.dropWhile_cons]
    simp only [HeadNotSp] at h
    rw [h]
    simp

/-- A list satisfying all four invariants is a fixed point of the
whitespace-cleanup stage. -/
lemma cleanWs_fix (l : List ℕ) (h32 : AllSp32 l) (hadj : NoAdjSp l)
    (hh : HeadNotSp l) (hl : LastNotSp l) : cleanWs l = l := by
  unfold cleanWs stripWs
  rw [(sq_id l h32 hadj).1, dropWhile_sp_id l hh, dropTrail_id l hl]

lemma cleanWs_all32 (l : List ℕ) : AllSp32 (cleanWs l) := by
  intro c hc hsp
  unfold cleanWs stripWs at hc
  have h1 : c ∈ (squeezeWs false l).dropWhile isSpaceCode :=
    mem_dropTrail _ _ hc
  have h2 : c ∈ squeezeWs false l :=
    (List.dropWhile_sublist _).mem h1
  exact sq_all32 l false c h2 hsp

lemma cleanWs_noAdj (l : List ℕ) : NoAdjSp (cleanWs l) :=
  noAdj_dropTrail _ (noAdj_dropWhile _ _ (sq_noAdj l false))

lemma cleanWs_head (l : List ℕ) : HeadNotSp (cleanWs l) :=
  head_dropTrail _ (head_dropWhile_sp _)

lemma cleanWs_last (l : List ℕ) : LastNotSp (cleanWs l) :=
  last_dropTrail _

/-- The whitespace-cleanup stage is idempotent. -/
lemma cleanWs_idem (l : List ℕ) : cleanWs (cleanWs l) = cleanWs l :=
  cleanWs_fix _ (cleanWs_all32 l) (cleanWs_noAdj l) (cleanWs_head l) (cleanWs_last l)

lemma mem_squeezeWs (l : List ℕ) : ∀ b c, c ∈ squeezeWs b l → c = 32 ∨ c ∈ l := by
  induction l with
  | nil => intro b c hc; simp [squeezeWs] at hc
  | cons d rest ih =>
    intro b c hc
    by_cases hd : isSpaceCode d = true
    · simp only [squeezeWs, hd, if_true] at hc
      by_cases hb : b = true
      · subst hb
        simp only [if_true] at hc
        rcases ih true c hc with h | h
        · exact Or.inl h
        · exact Or.inr (List.mem_cons_of_mem _ h)
      · rw [Bool.not_eq_true] at hb
        subst hb
        simp only [Bool.false_eq_true, if_false, List.mem_cons] at hc
        rcases hc with h | h
        · exact Or.inl h
        · rcases ih true c h with h2 | h2
          · exact Or.inl h2
          · exact Or.inr (List.mem_cons_of_mem _ h2)
    · rw [Bool.not_eq_true] at hd
      simp only [squeezeWs, hd, Bool.false_eq_true, if_false, List.mem_cons] at hc
      rcases hc with h | h
      · exact Or.inr (h ▸ List.mem_cons_self _ _)
      · rcases ih false c h with h2 | h2
        · exact Or.inl h2
        · exact Or.inr (List.mem_cons_of_mem _ h2)

lemma mem_cleanWs (l : List ℕ) (c : ℕ) (h : c ∈ cleanWs l) : c = 32 ∨ c ∈ l :=
  mem_squeezeWs l false c ((List.dropWhile_sublist _).mem (mem_dropTrail _ _ h))

lemma lowerCode_idem (c : ℕ) : lowerCode (lowerCode c) = lowerCode c := by
  unfold lowerCode
  split_ifs <;> omega

lemma keepCode_lower (c : ℕ) (h : keepCode c = true) : keepCode (lowerCode c) = true := by
  unfold lowerCode
  split_ifs with hU
  · unfold keepCode isAlnumCode isAlphaCode isUpperCode isLowerCode isDigitCode isSpaceCode
    simp only [Bool.or_eq_true, decide_eq_true_eq]
    omega
  · exact h

lemma lowerStr_fix (l : List ℕ) (h : ∀ c ∈ l, lowerCode c = c) : lowerStr l = l := by
  unfold lowerStr
  induction l with
  | nil => rfl
  | cons c rest ih =>
    simp only [List.map_cons]
    rw [h c (List.mem_cons_self _ _),
        ih (fun d hd => h d (List.mem_cons_of_mem _ hd))]

/-- A string satisfying the whitespace invariants, all of whose characters
survive the enabled special-character filter and are fixed by the enabled
case-fold, is a fixed point of the filter/case-fold/whitespace tail of the
pipeline. -/
lemma cleanTail_fix (sp lc : Bool) (y : List ℕ)
    (h32 : AllSp32 y) (hadj : NoAdjSp y) (hh : HeadNotSp y) (hl : LastNotSp y)
    (hkeep : sp = true → ∀ c ∈ y, keepCode c = true)
    (hlow : lc = true → ∀ c ∈ y, lowerCode c = c) :
    cleanWs (if lc then lowerStr (if sp then y.filter keepCode else y)
             else (if sp then y.filter keepCode else y)) = y := by
  have h4 : (if sp then y.filter keepCode else y) = y := by
    cases sp with
    | false => rfl
    | true => exact if_pos rfl ▸ List.filter_eq_self.mpr (hkeep rfl)
  rw [h4]
  have h5 : (if lc then lowerStr y else y) = y := by
    cases lc with
    | false => rfl
    | true => exact if_pos rfl ▸ lowerStr_fix y (hlow rfl)
  rw [h5]
  exact cleanWs_fix y h32 hadj hh hl

/-- C6 (amended): the pipeline is idempotent whenever the three removal
stages (markup, URL, email) and the token-level NLTK stages are disabled —
the surviving stages (optional special-character filter, optional
case-fold, whitespace collapse) are idempotent by construction.  With a
removal stage enabled, idempotence can fail because a removal can splice
the surviving pieces into a new removable pattern (see the
counterexample). -/
theorem C6_amended (cfg : PreprocConfig) (nltkAvailable : Bool)
    (nltkStage : List ℕ → List ℕ) (x : List ℕ)
    (hh : cfg.remove_html = false) (hu : cfg.remove_urls = false)
    (he : cfg.remove_emails = false) (hs : cfg.remove_stopwords = false)
    (hl : cfg.lemmatize = false) (hst : cfg.stem = false) :
    preprocess cfg nltkAvailable nltkStage (preprocess cfg nltkAvailable nltkStage x)
      = preprocess cfg nltkAvailable nltkStage x := by
  simp only [preprocess, hh, hu, he, hs, hl, hst, Bool.false_eq_true, if_false,
    Bool.or_false, Bool.and_false]
  by_cases hx : x = []
  · simp [hx]
  · rw [if_neg hx]
    set y := cleanWs (if cfg.lowercase then
        lowerStr (if cfg.remove_special_chars then x.filter keepCode else x)
      else (if cfg.remove_special_chars then x.filter keepCode else x)) with hy
    by_cases hye : y = []
    · rw [if_pos hye]
      exact hye.symm
    · rw [if_neg hye]
      refine cleanTail_fix cfg.remove_special_chars cfg.lowercase y
        (cleanWs_all32 _) (cleanWs_noAdj _) (cleanWs_head _) (cleanWs_last _) ?_ ?_
      · intro hsp c hc
        rcases mem_cleanWs _ c hc with h32 | hmem
        · subst h32; decide
        · rw [if_pos hsp] at hmem
          cases hlc : cfg.lowercase with
          | false =>
            rw [hlc, if_neg (by simp)] at hmem
            exact List.of_mem_filter hmem
          | true =>
            rw [hlc, if_pos rfl] at hmem
            obtain ⟨d, hd, hcd⟩ := List.mem_map.mp hmem
            rw [← hcd]
            exact keepCode_lower d (List.of_mem_filter hd)
      · intro hlc c hc
        rcases mem_cleanWs _ c hc with h32 | hmem
        · subst h32; decide
        · rw [if_pos hlc] at hmem
          obtain ⟨d, hd, hcd⟩ := List.mem_map.mp hmem
          rw [← hcd]
          exact lowerCode_idem d

/-- The configuration with the three removal stages disabled and the
default case-fold kept. -/
def cfgNoStrip : PreprocConfig :=
  { remove_urls := false, remove_emails := false, remove_html := false }

/-- Witness for C6 (amended) at a concrete mixed-case, multi-space text. -/
theorem C6_witness :
    preprocess cfgNoStrip false id
        (preprocess cfgNoStrip false id (strCodes "  Mixed   CASE text  "))
      = preprocess cfgNoStrip false id (strCodes "  Mixed   CASE text  ") :=
  C6_amended cfgNoStrip false id (strCodes "  Mixed   CASE text  ")
    rfl rfl rfl rfl rfl rfl

end Feelnet
